import Mathlib

set_option maxHeartbeats 1000000

namespace WaterbutlerSpec

/-
Shallow embedding of waterbutler/core/provider.py.

Section 1 models the rate limiter (the throttle decorator, lines 23-46):
the per-context shared state is the tuple stored in the weak dictionary,
and one wrapped call is one step.  The count and last-call components of
the tuple are read into locals and never written back by the code; only
the event object is shared, and every call leaves it set.

Section 2 models the request gateway retry loop of make_request
(lines 140-176): one attempt is an abstract outcome, either a response or
an error carrying a numeric code, and the loop tracks the sleeps it
performs.

Section 3 models exists / handle_name_conflict (lines 367-415).

Section 4 models the generic transfer orchestrator: move, copy and
the recursive folder operation (lines 181-301) over a two-sided
flat-map filesystem.
-/

/-! ### Section 1: the throttle decorator (lines 23-46) -/

/-- The per-context tuple kept in the weak dictionary: the call counter,
the last-call timestamp, and whether the shared event is set (gate open). -/
structure ThrottleState where
  count : Nat
  lastCall : Nat
  eventOpen : Bool
deriving DecidableEq, Repr

/-- One wrapped call (lines 26-44).  On a fresh context the tuple
(0, now, set event) is stored; otherwise the stored tuple is read.  The
call then rebinds count and lastCall locally; those rebindings are never
written back to the dictionary, so the stored counter and last-call time
do not change after first insertion.  The event object is shared: a call
that closes the gate sleeps out the window and sets the event again, so
the stored event ends every call open.  Returns the stored tuple after
the call and whether the call suspended. -/
def throttleCall (concurrency interval : Nat) (st : Option ThrottleState) (now : Nat) :
    Option ThrottleState × Bool :=
  let s := st.getD ⟨0, now, true⟩
  let c := s.count + 1
  let slept := decide (c > concurrency ∧ now - s.lastCall < interval)
  (some { s with eventOpen := true }, slept)

/-- A sequence of wrapped calls in one scheduling context, from a fresh
context: the final stored tuple and the number of calls that suspended. -/
def throttleRun (concurrency interval : Nat) (times : List Nat) :
    Option ThrottleState × Nat :=
  times.foldl
    (fun acc t =>
      let step := throttleCall concurrency interval acc.1 t
      (step.1, acc.2 + if step.2 then 1 else 0))
    (none, 0)

/-! ### Section 2: make_request retry loop (lines 140-176) -/

/-- The retry loop of make_request (lines 166-176).  att gives the outcome
of each attempt by index: a response (ok) or an error carrying a numeric
code.  r is the initial retry budget (the local _retry), retry the
remaining budget.  The loop returns the final outcome together with the
list of sleep durations performed, in order: on a failure with code in
retryOn and retry positive it sleeps (1 + _retry - retry) * 2 seconds and
retries; with retry at zero, or a code outside retryOn, the error
propagates with no sleep. -/
def mrLoop (retryOn : List Nat) (r : Nat) (att : Nat → Except Nat Nat) :
    Nat → Nat → Except Nat Nat × List Nat
  | 0, idx => (att idx, [])
  | retry + 1, idx =>
    match att idx with
    | .ok v => (.ok v, [])
    | .error c =>
      if c ∈ retryOn then
        let rest := mrLoop retryOn r att retry (idx + 1)
        (rest.1, (1 + r - (retry + 1)) * 2 :: rest.2)
      else (.error c, [])

/-- make_request with retry budget r: the loop starts with retry = _retry = r
at the first attempt. -/
def makeRequestM (retryOn : List Nat) (r : Nat) (att : Nat → Except Nat Nat) :
    Except Nat Nat × List Nat :=
  mrLoop retryOn r att r 0

/-- The instance-level default retry_on set (line 81). -/
def defaultRetryOn : List Nat := [408, 502, 503, 504]

/-! ### Section 3: exists and handle_name_conflict (lines 367-415) -/

/-- The kinds of error the exists check distinguishes: NotFoundError,
MetadataError, and any other exception type. -/
inductive EKind
  | notFound
  | metadataErr
  | otherErr
deriving DecidableEq, Repr

/-- An error value: its exception kind and its numeric code. -/
structure WbErr where
  kind : EKind
  code : Nat
deriving DecidableEq, Repr

/-- A metadata result: file metadata, or a folder listing carrying the number
of entries in the listing (an empty folder gives listing 0). -/
inductive MdC
  | fileMd
  | listing (n : Nat)
deriving DecidableEq, Repr

/-- exists (lines 377-384): attempt the metadata fetch; a NotFoundError maps
to False, a MetadataError whose code is not 404 re-raises while one coded 404
maps to False, and any other exception propagates.  The Python False result
is modelled as none, a successful metadata value as some. -/
def existsCatch (r : Except WbErr MdC) : Except WbErr (Option MdC) :=
  match r with
  | .ok m => .ok (some m)
  | .error e =>
    match e.kind with
    | .notFound => .ok none
    | .metadataErr => if e.code ≠ 404 then .error e else .ok none
    | .otherErr => .error e

/-- A name in the collision-avoidance sequence.  Modelled from the spec: the
increment_name operation belongs to the path type, which is outside the
provided sources; the spec describes a deterministic numbered-suffix sequence
(a.txt, a (1).txt, a (2).txt, ...), modelled as a base name together with the
numeric suffix. -/
structure CName where
  base : String
  num : Nat
deriving DecidableEq, Repr

/-- Modelled from the spec: the next candidate name of the numbered-suffix
sequence. -/
def incC (n : CName) : CName := ⟨n.base, n.num + 1⟩

/-- A path for the conflict resolver: its named segments and folder flag. -/
structure CPath where
  segs : List CName
  isDir : Bool
deriving DecidableEq, Repr

def CPath.lastName (p : CPath) : CName := p.segs.getLastD ⟨"", 0⟩

/-- Modelled from the spec: path.increment_name() replaces the final name
with the next candidate of the sequence. -/
def CPath.incrementName (p : CPath) : CPath :=
  ⟨p.segs.dropLast ++ [incC p.lastName], p.isDir⟩

/-- increment_name applied k times. -/
def iterInc : Nat → CPath → CPath
  | 0, p => p
  | k + 1, p => iterInc k p.incrementName

/-- A filesystem entry for the conflict model. -/
inductive CEntry
  | cfile
  | cdir
deriving DecidableEq, Repr

/-- The conflict-model filesystem: an association list from full paths to
entries. -/
abbrev CFS := List (List CName × CEntry)

def clookup : CFS → List CName → Option CEntry
  | [], _ => none
  | (q, e) :: rest, p => if q = p then some e else clookup rest p

/-- Number of direct children of p recorded in the filesystem. -/
def cchildCount : CFS → List CName → Nat
  | [], _ => 0
  | (q, _) :: rest, p =>
    (if q ≠ [] ∧ q.dropLast = p then 1 else 0) + cchildCount rest p

/-- The abstract provider metadata call over the conflict-model filesystem: a
file entry yields file metadata, a folder entry yields its (possibly empty)
listing, a missing path raises NotFoundError with code 404. -/
def metadataC (fs : CFS) (p : CPath) : Except WbErr MdC :=
  match clookup fs p.segs with
  | some .cfile => .ok .fileMd
  | some .cdir => .ok (.listing (cchildCount fs p.segs))
  | none => .error ⟨.notFound, 404⟩

/-- The value of exists() over the model filesystem (it never propagates an
error there, since the model metadata only raises NotFoundError). -/
def existsPy (fs : CFS) (p : CPath) : Option MdC :=
  match existsCatch (metadataC fs p) with
  | .ok ex => ex
  | .error _ => none

/-- Python truthiness of the exists result (False, a metadata object, or a
listing: an empty listing is falsy). -/
def pyTruthy : Option MdC → Bool
  | none => false
  | some .fileMd => true
  | some (.listing n) => decide (n ≠ 0)

/-- Python equality of the exists result with the empty list (only an empty
listing equals []; False == [] is false in Python). -/
def pyEqEmptyList : Option MdC → Bool
  | some (.listing n) => decide (n = 0)
  | _ => false

/-- The conflict policy (line 393): replace, keep, warn. -/
inductive Conflict
  | replace
  | keep
  | warn
deriving DecidableEq, Repr

/-- The outcome of handle_name_conflict: a returned (path, exists) pair, a
raised NamingConflict carrying its path, a propagated error, or fuel
exhaustion of the model. -/
inductive HNCRes
  | ok (p : CPath) (ex : Option MdC)
  | namingConflict (p : CPath)
  | errored (e : WbErr)
  | fuelOut
deriving DecidableEq, Repr

/-- The keep loop (lines 403-413): increment the name, revalidate against the
parent (the base revalidate_path recomposes the same path), check existence,
and stop at the first candidate whose exists result is falsy and not the
empty list; the function then returns (path, False). -/
def hncLoop (fs : CFS) : CPath → Nat → HNCRes
  | _, 0 => .fuelOut
  | p, fuel + 1 =>
    match existsCatch (metadataC fs p.incrementName) with
    | .error e => .errored e
    | .ok ex =>
      if !(pyTruthy ex || pyEqEmptyList ex) then .ok p.incrementName none
      else hncLoop fs p.incrementName fuel

/-- handle_name_conflict (lines 386-415): fetch existence; when the result is
falsy and not the empty listing, or the policy is replace, return the path
with the existence result; when the policy is warn, raise NamingConflict with
the path; otherwise run the keep loop. -/
def handleNameConflictC (fs : CFS) (p : CPath) (conflict : Conflict) (fuel : Nat) : HNCRes :=
  match existsCatch (metadataC fs p) with
  | .error e => .errored e
  | .ok ex =>
    if (pyTruthy ex = false ∧ pyEqEmptyList ex = false) ∨ conflict = .replace then .ok p ex
    else if conflict = .warn then .namingConflict p
    else hncLoop fs p fuel

/-- A one-file filesystem and its path, used as concrete inputs. -/
def cfs0 : CFS := [([⟨"a", 0⟩], .cfile)]

def cp0 : CPath := ⟨[⟨"a", 0⟩], false⟩

def cp1 : CPath := ⟨[⟨"a", 1⟩], false⟩

/-- A filesystem holding one empty folder, and its path. -/
def cfsD : CFS := [([⟨"d", 0⟩], .cdir)]

def cpD : CPath := ⟨[⟨"d", 0⟩], true⟩

/-! ### Section 4: the transfer orchestrator (lines 181-301) -/

/-- A full path in a provider's namespace, as a list of segment names. -/
abbrev Segs := List String

/-- A filesystem entry: a file carrying its content and the optional name its
download stream will report, or a folder marker. -/
inductive Entry
  | file (content : Nat) (sname : Option String)
  | dir
deriving DecidableEq, Repr

/-- A provider's state: an association list from full paths to entries. -/
abbrev FS := List (Segs × Entry)

def lookupFS : FS → Segs → Option Entry
  | [], _ => none
  | (q, e) :: rest, p => if q = p then some e else lookupFS rest p

/-- Remove the whole subtree rooted at p: every entry whose path has p as a
prefix, p itself included. -/
def removeTree (fs : FS) (p : Segs) : FS :=
  fs.filter (fun x => !(p.isPrefixOf x.1))

/-- delete on a provider: raises 404 when no entry exists at the path,
otherwise removes the subtree. -/
def deleteFS (fs : FS) (p : Segs) : Except Nat FS :=
  if lookupFS fs p = none then .error 404 else .ok (removeTree fs p)

/-- Write an entry at a path (upload and create_folder both store). -/
def setFS (fs : FS) (p : Segs) (e : Entry) : FS :=
  (p, e) :: fs.filter (fun x => !(x.1 == p))

def Entry.isDirE : Entry → Bool
  | .dir => true
  | _ => false

/-- The direct children of p recorded in the filesystem: name and folder
flag, in filesystem order. -/
def childNames : FS → Segs → List (String × Bool)
  | [], _ => []
  | (q, e) :: rest, p =>
    if q ≠ [] ∧ q.dropLast = p then (q.getLastD "", e.isDirE) :: childNames rest p
    else childNames rest p

/-- metadata on the source folder (line 275): its listing; 404 when nothing
exists at the path, 400 when the entry there is a file.  The root is a folder
with no entry of its own. -/
def metadataList (fs : FS) (p : Segs) : Except Nat (List (String × Bool)) :=
  if p = [] then .ok (childNames fs p)
  else
    match lookupFS fs p with
    | some .dir => .ok (childNames fs p)
    | some (.file _ _) => .error 400
    | none => .error 404

/-- A path object: segments and the is_dir flag. -/
structure WbPath where
  segs : Segs
  isDir : Bool
deriving DecidableEq, Repr

/-- revalidate_path of the base provider (line 426): pure child composition. -/
def WbPath.child (p : WbPath) (n : String) (folder : Bool) : WbPath :=
  ⟨p.segs ++ [n], folder⟩

/-- The pair of provider states a transfer acts on: the source provider's
filesystem and the destination provider's. -/
structure World where
  src : FS
  dst : FS
deriving DecidableEq, Repr

/-- The metadata value a transfer returns: a name, a folder flag, and, for
folders, the children list the recursive operation collects. -/
inductive Md
  | mk (name : String) (isFolder : Bool) (children : List Md)

def lastString (p : Segs) : String := p.getLastD ""

/-- Lines 239-240: when the download stream carries a truthy name the
destination path is renamed to it; rename (modelled from the spec — the path
type is outside the provided sources) replaces the final segment. -/
def renameIfStream (d : WbPath) (sname : Option String) : WbPath :=
  match sname with
  | some nm => if nm = "" then d else ⟨d.segs.dropLast ++ [nm], d.isDir⟩
  | none => d

/-- download (line 237): the stream of the file at the path, 404 when no file
is there. -/
def downloadFS (fs : FS) (p : Segs) : Except Nat (Nat × Option String) :=
  match lookupFS fs p with
  | some (.file c sn) => .ok (c, sn)
  | _ => .error 404

/-- upload (line 242): store the stream at the path, returning metadata and
whether the destination was newly created. -/
def uploadFS (fs : FS) (stream : Nat × Option String) (p : Segs) :
    FS × (Md × Bool) :=
  (setFS fs p (.file stream.1 stream.2),
    (.mk (lastString p) false [], (lookupFS fs p).isNone))

/-- The generic single-file copy tail (lines 237-242): download the source,
rename the destination when the stream carries a name, upload to the
(possibly renamed) destination. -/
def fileCopy (w : World) (s d : WbPath) : World × Except Nat (Md × Bool) :=
  match downloadFS w.src s.segs with
  | .error e => (w, .error e)
  | .ok stream =>
    let up := uploadFS w.dst stream (renameIfStream d stream.2).segs
    (⟨w.src, up.1⟩, .ok up.2)

/-- Lines 262-268 of _folder_file_op: the initial destination delete.  r is
the outcome of dest_provider.delete(dest_path), carrying the new destination
state on success; deletion success gives created = false, a 404 means nothing
was there and gives created = true, and any other error code re-raises. -/
def folderOpInit (r : Except Nat FS) (cur : FS) : Except Nat (FS × Bool) :=
  match r with
  | .ok fs1 => .ok (fs1, false)
  | .error e => if e ≠ 404 then .error e else .ok (cur, true)

/-- Structural helper for the batch decomposition, with the list length as
fuel. -/
def codeBatchesAux (op : Nat) : Nat → List α → List (List α)
  | 0, _ => []
  | _ + 1, [] => []
  | f + 1, x :: xs =>
    if op = 0 then []
    else (x :: xs).take op :: codeBatchesAux op f ((x :: xs).drop op)

/-- Line 277: the batch decomposition range(0, len(items), op) with slices
items[i:i+op].  op = 0 is excluded by hypothesis everywhere (Python range
with step 0 raises). -/
def codeBatches (op : Nat) (l : List α) : List (List α) :=
  codeBatchesAux op l.length l

/-- Lines 279-299, one batch: apply the child operation to each listed child
in order (handle_naming false), failing fast on the first error, collecting
each child's metadata. -/
def childStep (child : World → WbPath → WbPath → World × Except Nat (Md × Bool)) :
    World → WbPath → WbPath → List (String × Bool) → World × Except Nat (List Md)
  | w, _, _, [] => (w, .ok [])
  | w, s, d, (n, isF) :: rest =>
    let r1 := child w (s.child n isF) (d.child n isF)
    match r1.2 with
    | .error e => (r1.1, .error e)
    | .ok md =>
      let r2 := childStep child r1.1 s d rest
      match r2.2 with
      | .error e => (r2.1, .error e)
      | .ok mds => (r2.1, .ok (md.1 :: mds))

/-- Lines 277-299, the batch loop: process the batches in order, waiting for
each before the next; an error aborts the remaining batches. -/
def batchStep
    (children : World → WbPath → WbPath → List (String × Bool) → World × Except Nat (List Md)) :
    World → WbPath → WbPath → List (List (String × Bool)) → World × Except Nat (List Md)
  | w, _, _, [] => (w, .ok [])
  | w, s, d, b :: bs =>
    let r1 := children w s d b
    match r1.2 with
    | .error e => (r1.1, .error e)
    | .ok mds =>
      let r2 := batchStep children r1.1 s d bs
      match r2.2 with
      | .error e => (r2.1, .error e)
      | .ok mds2 => (r2.1, .ok (mds ++ mds2))

/-- _folder_file_op (lines 244-301): delete the destination noting created,
create the destination folder (precheck skipped), revalidate the destination
path (the base revalidate recomposes it), list the source children, process
them in batches of op with the given per-child operation, and return the
folder metadata carrying the collected children. -/
def folderFileOp (child : World → WbPath → WbPath → World × Except Nat (Md × Bool))
    (op : Nat) (w : World) (s d : WbPath) : World × Except Nat (Md × Bool) :=
  match folderOpInit (deleteFS w.dst d.segs) w.dst with
  | .error e => (w, .error e)
  | .ok init =>
    match metadataList w.src s.segs with
    | .error e => (⟨w.src, setFS init.1 d.segs .dir⟩, .error e)
    | .ok items =>
      let bres := batchStep (childStep child) ⟨w.src, setFS init.1 d.segs .dir⟩
        s d (codeBatches op items)
      match bres.2 with
      | .error e => (bres.1, .error e)
      | .ok mds => (bres.1, .ok (.mk (lastString d.segs) true mds, init.2))

/-- Lines 208-215: move performs the copy work and then deletes the source;
copy returns the inner result unchanged.  An error in the inner work
propagates before the source delete runs. -/
def moveWrap (mv : Bool) (r : World × Except Nat (Md × Bool)) (s : WbPath) :
    World × Except Nat (Md × Bool) :=
  if mv then
    match r.2 with
    | .error e => (r.1, .error e)
    | .ok md =>
      match deleteFS r.1.src s.segs with
      | .error e => (r.1, .error e)
      | .ok src1 => (⟨src1, r.1.dst⟩, .ok md)
  else r

/-- The generic transfer operation without a fast path (move when mv is true,
copy when mv is false), lines 181-242: naming already handled, no intra
move/copy (the base provider reports none); a directory source runs the
recursive folder operation with the same operation as the per-child function,
a file source runs the single-file copy; move then deletes the source.  fuel
bounds the recursion depth of the model and both operations consume it
identically. -/
def genOp (mv : Bool) (op : Nat) : Nat → World → WbPath → WbPath → World × Except Nat (Md × Bool)
  | 0, w, s, d =>
    moveWrap mv (if s.isDir then (w, .error 599) else fileCopy w s d) s
  | fuel + 1, w, s, d =>
    moveWrap mv
      (if s.isDir then folderFileOp (genOp mv op fuel) op w s d else fileCopy w s d) s

/-- copy without fast path. -/
def copyF (op fuel : Nat) (w : World) (s d : WbPath) : World × Except Nat (Md × Bool) :=
  genOp false op fuel w s d

/-- move without fast path. -/
def moveF (op fuel : Nat) (w : World) (s d : WbPath) : World × Except Nat (Md × Bool) :=
  genOp true op fuel w s d

/-- Well-formedness of a provider state: no two entries share a path. -/
def keysNodup (fs : FS) : Prop := (fs.map (fun x => x.1)).Nodup

/-- The scheduler model of one batch (lines 279-296): the j-th child of a
batch starts while the batch's earlier file children may still be in flight
and its earlier directory children have already been awaited inline, so the
number of in-flight operations while child j runs is the count of earlier
files in the batch plus one.  true marks a directory child. -/
def inflightCounts (batch : List Bool) : List Nat :=
  (List.range batch.length).map
    (fun j => ((batch.take j).countP (fun isF => !isF)) + 1)

/-- q and p are prefix-incomparable segment paths. -/
def DisjSeg (q p : Segs) : Prop := ¬(q <+: p) ∧ ¬(p <+: q)

/-- q lies strictly under s. -/
def StrictUnder (s q : Segs) : Prop := s <+: q ∧ q ≠ s

/-- b is obtained from a by removing subtrees rooted at paths satisfying P. -/
inductive Rem (P : Segs → Prop) : FS → FS → Prop
  | refl (fs : FS) : Rem P fs fs
  | step {a b : FS} (q : Segs) : Rem P a b → P q → Rem P a (removeTree b q)

/-- The correspondence between the generic move and the generic copy from
related worlds: same outcome, same destination state; on copy success the
move's source is the original minus the subtree at s, and on copy failure the
move's source has lost only subtrees strictly under s (so the node at s
itself survives). -/
def GenConcl (op fuel : Nat) (s d : WbPath) (wC wM : World) : Prop :=
  (genOp true op fuel wM s d).2 = (genOp false op fuel wC s d).2 ∧
  (genOp true op fuel wM s d).1.dst = (genOp false op fuel wC s d).1.dst ∧
  (∀ v, (genOp false op fuel wC s d).2 = .ok v →
    (genOp true op fuel wM s d).1.src = removeTree wM.src s.segs) ∧
  (∀ e, (genOp false op fuel wC s d).2 = .error e →
    Rem (StrictUnder s.segs) wM.src (genOp true op fuel wM s d).1.src)

/-- A concrete source tree for witnesses: a folder a with two files, a
subfolder and a file inside it. -/
def wSrc0 : FS :=
  [(["a"], .dir), (["a", "f"], .file 1 none), (["a", "g"], .file 2 none),
   (["a", "sub"], .dir), (["a", "sub", "h"], .file 3 none)]

def w0 : World := ⟨wSrc0, []⟩

def sPath0 : WbPath := ⟨["a"], true⟩

def dPath0 : WbPath := ⟨["b"], true⟩

/-- The metadata the generic copy of w0 produces at dPath0. -/
def mdExp : Md :=
  .mk "b" true
    [.mk "f" false [], .mk "g" false [], .mk "sub" true [.mk "h" false []]]

/-- A one-file world whose file stream carries a name, for the rename
witness. -/
def wRen : World := ⟨[(["x"], .file 7 (some "doc"))], []⟩

/-! ### Section 1 and 2: theorems -/

theorem throttleCall_frozen (concurrency interval : Nat) (hc : 1 ≤ concurrency)
    (t0 now : Nat) (b : Bool) :
    throttleCall concurrency interval (some ⟨0, t0, b⟩) now = (some ⟨0, t0, true⟩, false) := by
  have h : ¬(0 + 1 > concurrency ∧ now - t0 < interval) := fun h => by omega
  simp [throttleCall, h]
  omega

theorem throttleRun_aux (concurrency interval : Nat) (hc : 1 ≤ concurrency)
    (t0 : Nat) :
    ∀ (l : List Nat) (n : Nat),
      List.foldl
        (fun acc t =>
          let step := throttleCall concurrency interval acc.1 t
          (step.1, acc.2 + if step.2 then 1 else 0))
        (some ⟨0, t0, true⟩, n) l = (some ⟨0, t0, true⟩, n) := by
  intro l
  induction l with
  | nil => intro n; rfl
  | cons t rest ih =>
    intro n
    simp only [List.foldl_cons]
    rw [show (throttleCall concurrency interval (some ⟨0, t0, true⟩) t) =
        (some ⟨0, t0, true⟩, false) from throttleCall_frozen concurrency interval hc t0 t true]
    simpa using ih n

/-- C1 (code_bug side): the wrapped call rebinds count and last_call locally and
never writes them back to the shared per-context tuple, so for any concurrency
of at least one, a whole sequence of calls in one context performs zero
suspensions — the counter the next call sees is always the initial 0, the gate
never closes, and the stored state stays at its first-call value.  The claim
that at most concurrency calls start per interval window, with the updated
counter and last-reset time seen by the next call, is false of the code. -/
theorem throttle_never_suspends (concurrency interval : Nat) (times : List Nat)
    (hc : 1 ≤ concurrency) :
    (throttleRun concurrency interval times).2 = 0 ∧
    (throttleRun concurrency interval times).1 =
      times.head?.map (fun t => ⟨0, t, true⟩) := by
  cases times with
  | nil => exact ⟨rfl, rfl⟩
  | cons t rest =>
    have h1 : throttleCall concurrency interval none t = (some ⟨0, t, true⟩, false) := by
      have h : ¬(0 + 1 > concurrency ∧ t - t < interval) := fun h => by omega
      simp [throttleCall, h]
      omega
    unfold throttleRun
    simp only [List.foldl_cons, h1]
    have haux := throttleRun_aux concurrency interval hc t rest 0
    refine ⟨?_, ?_⟩
    · have h2 := congrArg Prod.snd haux
      simpa using h2
    · have h2 := congrArg Prod.fst haux
      simpa using h2

/-- Witness for C1: eleven calls at time 0 in a fresh context with the default
concurrency 10 and interval 1: the eleventh call (and every other) does not
suspend, and the stored tuple is still (0, 0, set). -/
theorem throttle_never_suspends_witness :
    (throttleRun 10 1 (List.replicate 11 0)).2 = 0 ∧
    (throttleRun 10 1 (List.replicate 11 0)).1 = some ⟨0, 0, true⟩ := by
  have h := throttle_never_suspends 10 1 (List.replicate 11 0) (by omega)
  exact ⟨h.1, by rw [h.2]; rfl⟩

theorem mrLoop_sleep_pattern (retryOn : List Nat) (r : Nat) (att : Nat → Except Nat Nat) :
    ∀ retry idx, retry ≤ r →
      (mrLoop retryOn r att retry idx).2 =
        (List.range (mrLoop retryOn r att retry idx).2.length).map
          (fun i => ((r - retry) + i + 1) * 2) ∧
      (mrLoop retryOn r att retry idx).2.length ≤ retry := by
  intro retry
  induction retry with
  | zero => intro idx _; simp [mrLoop]
  | succ t ih =>
    intro idx hle
    cases hatt : att idx with
    | ok v => simp [mrLoop, hatt]
    | error c =>
      by_cases hmem : c ∈ retryOn
      · have hrec := ih (idx + 1) (by omega)
        simp only [mrLoop, hatt, if_pos hmem]
        refine ⟨?_, by simpa using hrec.2⟩
        simp only [List.length_cons, List.range_succ_eq_map, List.map_cons, List.map_map]
        congr 1
        · omega
        · rw [hrec.1]
          simp only [List.length_map, List.length_range]
          apply List.map_congr_left
          intro i _
          simp only [Function.comp_apply]
          omega
      · simp [mrLoop, hatt, hmem]

theorem mrLoop_success_after (retryOn : List Nat) (r : Nat) (att : Nat → Except Nat Nat) :
    ∀ k retry idx v, retry ≤ r → k ≤ retry →
      (∀ i, i < k → ∃ c, att (idx + i) = .error c ∧ c ∈ retryOn) →
      att (idx + k) = .ok v →
      mrLoop retryOn r att retry idx =
        (.ok v, (List.range k).map (fun i => ((r - retry) + i + 1) * 2)) := by
  intro k
  induction k with
  | zero =>
    intro retry idx v _ _ _ hok
    rw [Nat.add_zero] at hok
    cases retry with
    | zero => simp [mrLoop, hok]
    | succ t => simp [mrLoop, hok]
  | succ k ih =>
    intro retry idx v hr hk hf hok
    obtain ⟨t, rfl⟩ : ∃ t, retry = t + 1 := ⟨retry - 1, by omega⟩
    obtain ⟨c, hc, hcmem⟩ := hf 0 (by omega)
    rw [Nat.add_zero] at hc
    have hrec := ih t (idx + 1) v (by omega) (by omega)
      (fun i hi => by
        obtain ⟨ci, hci, hcimem⟩ := hf (i + 1) (by omega)
        exact ⟨ci, by rwa [show idx + 1 + i = idx + (i + 1) by omega], hcimem⟩)
      (by rwa [show idx + 1 + k = idx + (k + 1) by omega])
    simp only [mrLoop, hc, if_pos hcmem, hrec, Prod.mk.injEq, true_and]
    simp only [List.range_succ_eq_map, List.map_cons, List.map_map]
    congr 1
    · omega
    · apply List.map_congr_left
      intro i _
      simp only [Function.comp_apply]
      omega

theorem mrLoop_exhaustion (retryOn : List Nat) (r : Nat) (att : Nat → Except Nat Nat) :
    ∀ retry idx c, retry ≤ r →
      (∀ i, i < retry → ∃ ci, att (idx + i) = .error ci ∧ ci ∈ retryOn) →
      att (idx + retry) = .error c →
      mrLoop retryOn r att retry idx =
        (.error c, (List.range retry).map (fun i => ((r - retry) + i + 1) * 2)) := by
  intro retry
  induction retry with
  | zero =>
    intro idx c _ _ herr
    rw [Nat.add_zero] at herr
    simp [mrLoop, herr]
  | succ t ih =>
    intro idx c hr hf herr
    obtain ⟨c0, hc0, hc0mem⟩ := hf 0 (by omega)
    rw [Nat.add_zero] at hc0
    have hrec := ih (idx + 1) c (by omega)
      (fun i hi => by
        obtain ⟨ci, hci, hcimem⟩ := hf (i + 1) (by omega)
        exact ⟨ci, by rwa [show idx + 1 + i = idx + (i + 1) by omega], hcimem⟩)
      (by rwa [show idx + 1 + t = idx + (t + 1) by omega])
    simp only [mrLoop, hc0, if_pos hc0mem, hrec, Prod.mk.injEq, true_and]
    simp only [List.range_succ_eq_map, List.map_cons, List.map_map]
    congr 1
    · omega
    · apply List.map_congr_left
      intro i _
      simp only [Function.comp_apply]
      omega

/-- C2: make_request with retry budget r and a retry_on set sleeps exactly
(attempt_index) * 2 seconds before each retry — its sleep list is always
2, 4, 6, … — and performs at most r sleeps; a first attempt failing with a
code outside retry_on propagates immediately with no sleep; k retryable
failures followed by a success (k within budget) give the success after
sleeps 2, 4, …, 2k; and when the budget is exhausted the final error
propagates immediately with no further sleep. -/
theorem make_request_retry_backoff (retryOn : List Nat) (r : Nat)
    (att : Nat → Except Nat Nat) :
    ((makeRequestM retryOn r att).2 =
      (List.range (makeRequestM retryOn r att).2.length).map (fun i => (i + 1) * 2)) ∧
    ((makeRequestM retryOn r att).2.length ≤ r) ∧
    (∀ c, att 0 = .error c → c ∉ retryOn → makeRequestM retryOn r att = (.error c, [])) ∧
    (∀ k v, k ≤ r → (∀ i, i < k → ∃ c, att i = .error c ∧ c ∈ retryOn) →
      att k = .ok v →
      makeRequestM retryOn r att = (.ok v, (List.range k).map (fun i => (i + 1) * 2))) ∧
    (∀ c, (∀ i, i < r → ∃ ci, att i = .error ci ∧ ci ∈ retryOn) →
      att r = .error c →
      makeRequestM retryOn r att = (.error c, (List.range r).map (fun i => (i + 1) * 2))) := by
  have hpat := mrLoop_sleep_pattern retryOn r att r 0 (le_refl r)
  refine ⟨?_, ?_, ?_, ?_, ?_⟩
  · simpa [makeRequestM, Nat.sub_self] using hpat.1
  · simpa [makeRequestM] using hpat.2
  · intro c h0 hmem
    unfold makeRequestM
    cases r with
    | zero => simp [mrLoop, h0]
    | succ t => simp [mrLoop, h0, hmem]
  · intro k v hk hf hok
    have := mrLoop_success_after retryOn r att k r 0 v (le_refl r) hk
      (fun i hi => by simpa using hf i hi) (by simpa using hok)
    simpa [makeRequestM, Nat.sub_self] using this
  · intro c hf herr
    have := mrLoop_exhaustion retryOn r att r 0 c (le_refl r)
      (fun i hi => by simpa using hf i hi) (by simpa using herr)
    simpa [makeRequestM, Nat.sub_self] using this

/-- Witness for C2: with the default budget 2 and default retry_on set, an
attempt sequence failing once with 503 then succeeding with response 7 gives
the success after a single 2-second sleep. -/
theorem make_request_retry_backoff_witness :
    makeRequestM defaultRetryOn 2
      (fun i => if i = 0 then .error 503 else .ok 7) = (.ok 7, [2]) := by
  have h := (make_request_retry_backoff defaultRetryOn 2
      (fun i => if i = 0 then .error 503 else .ok 7)).2.2.2.1 1 7 (by omega)
    (fun i hi => ⟨503, by interval_cases i <;> simp, by simp [defaultRetryOn]⟩)
    (by simp)
  simpa using h

/-! ### Section 3: theorems -/

theorem existsCatch_metadataC (fs : CFS) (p : CPath) :
    existsCatch (metadataC fs p) = .ok (existsPy fs p) := by
  unfold existsPy metadataC
  cases h : clookup fs p.segs with
  | none => simp [existsCatch]
  | some e => cases e <;> simp [existsCatch]

theorem falsy_nonlist_iff (ex : Option MdC) :
    (pyTruthy ex = false ∧ pyEqEmptyList ex = false) ↔ ex = none := by
  cases ex with
  | none => simp [pyTruthy, pyEqEmptyList]
  | some m =>
    cases m with
    | fileMd => simp [pyTruthy, pyEqEmptyList]
    | listing n => by_cases hn : n = 0 <;> simp [pyTruthy, pyEqEmptyList, hn]

theorem orCheck_false_iff (ex : Option MdC) :
    (pyTruthy ex || pyEqEmptyList ex) = false ↔ ex = none := by
  cases ex with
  | none => simp [pyTruthy, pyEqEmptyList]
  | some m =>
    cases m with
    | fileMd => simp [pyTruthy, pyEqEmptyList]
    | listing n => by_cases hn : n = 0 <;> simp [pyTruthy, pyEqEmptyList, hn]

theorem orCheck_true_isSome (ex : Option MdC)
    (h : (pyTruthy ex || pyEqEmptyList ex) = true) : ex.isSome = true := by
  cases ex with
  | none => simp [pyTruthy, pyEqEmptyList] at h
  | some m => rfl

theorem handleNameConflictC_eq (fs : CFS) (p : CPath) (conflict : Conflict) (fuel : Nat) :
    handleNameConflictC fs p conflict fuel =
      if (pyTruthy (existsPy fs p) = false ∧ pyEqEmptyList (existsPy fs p) = false) ∨
          conflict = .replace then .ok p (existsPy fs p)
      else if conflict = .warn then .namingConflict p
      else hncLoop fs p fuel := by
  unfold handleNameConflictC
  rw [existsCatch_metadataC]

theorem hncLoop_succ (fs : CFS) (p : CPath) (fuel : Nat) :
    hncLoop fs p (fuel + 1) =
      if !(pyTruthy (existsPy fs p.incrementName) ||
          pyEqEmptyList (existsPy fs p.incrementName)) then .ok p.incrementName none
      else hncLoop fs p.incrementName fuel := by
  simp only [hncLoop]
  rw [existsCatch_metadataC]

theorem hncLoop_ne_namingConflict (fs : CFS) :
    ∀ (fuel : Nat) (p q : CPath), hncLoop fs p fuel ≠ .namingConflict q := by
  intro fuel
  induction fuel with
  | zero => intro p q h; simp [hncLoop] at h
  | succ f ih =>
    intro p q h
    rw [hncLoop_succ] at h
    cases horb : (pyTruthy (existsPy fs p.incrementName) ||
        pyEqEmptyList (existsPy fs p.incrementName)) with
    | false => rw [horb] at h; simp at h
    | true =>
      rw [horb] at h
      simp only [Bool.not_true, Bool.false_eq_true, if_false] at h
      exact ih p.incrementName q h

theorem lastName_incrementName (p : CPath) :
    p.incrementName.lastName = incC p.lastName := by
  simp [CPath.incrementName, CPath.lastName, List.getLastD_concat]

theorem lastName_iterInc (k : Nat) :
    ∀ p : CPath, (iterInc k p).lastName = ⟨p.lastName.base, p.lastName.num + k⟩ := by
  induction k with
  | zero => intro p; simp [iterInc]
  | succ j ih =>
    intro p
    show (iterInc j p.incrementName).lastName = _
    rw [ih p.incrementName, lastName_incrementName]
    simp [incC]
    omega

theorem hncLoop_spec (fs : CFS) :
    ∀ (fuel : Nat) (p p2 : CPath) (ex : Option MdC),
      hncLoop fs p fuel = .ok p2 ex →
      ex = none ∧ existsPy fs p2 = none ∧
      ∃ k, 1 ≤ k ∧ p2 = iterInc k p ∧
        (∀ i, 1 ≤ i → i < k → (existsPy fs (iterInc i p)).isSome = true) := by
  intro fuel
  induction fuel with
  | zero => intro p p2 ex h; simp [hncLoop] at h
  | succ f ih =>
    intro p p2 ex h
    rw [hncLoop_succ] at h
    cases horb : (pyTruthy (existsPy fs p.incrementName) ||
        pyEqEmptyList (existsPy fs p.incrementName)) with
    | false =>
      rw [horb] at h
      simp only [Bool.not_false, if_true] at h
      rw [HNCRes.ok.injEq] at h
      obtain ⟨hp, hexeq⟩ := h
      have hnone : existsPy fs p.incrementName = none := (orCheck_false_iff _).mp horb
      refine ⟨hexeq.symm, ?_, 1, le_refl 1, hp.symm, ?_⟩
      · rw [← hp]; exact hnone
      · intro i h1 hik; omega
    | true =>
      rw [horb] at h
      simp only [Bool.not_true, Bool.false_eq_true, if_false] at h
      obtain ⟨hexeq, hns, k, hk1, hpk, hprev⟩ := ih p.incrementName p2 ex h
      refine ⟨hexeq, hns, k + 1, by omega, hpk, ?_⟩
      intro i h1 hik
      obtain ⟨j, rfl⟩ := Nat.exists_eq_add_of_le h1
      cases j with
      | zero => exact orCheck_true_isSome _ horb
      | succ j2 =>
        have hgoal := hprev (j2 + 1) (by omega) (by omega)
        rw [show 1 + (j2 + 1) = (j2 + 1) + 1 by omega]
        exact hgoal

/-- C9: for every path, whether or not a node exists at it, handle_name_conflict
with the replace policy returns the path unchanged together with the existence
result. -/
theorem replace_returns_path_unchanged (fs : CFS) (p : CPath) (fuel : Nat) :
    handleNameConflictC fs p .replace fuel = .ok p (existsPy fs p) := by
  rw [handleNameConflictC_eq]
  rw [if_pos (Or.inr rfl)]

/-- C5: handle_name_conflict raises NamingConflict carrying the conflicting
path exactly when the policy is warn and the existence check is true (a
metadata object or a listing, the empty listing included); under replace and
keep it never raises NamingConflict. -/
theorem naming_conflict_iff_warn (fs : CFS) (p q : CPath) (conflict : Conflict)
    (fuel : Nat) :
    handleNameConflictC fs p conflict fuel = .namingConflict q ↔
      conflict = .warn ∧ q = p ∧ (existsPy fs p).isSome = true := by
  rw [handleNameConflictC_eq]
  cases hex : existsPy fs p with
  | none =>
    rw [if_pos (Or.inl ((falsy_nonlist_iff none).mpr rfl))]
    simp
  | some m =>
    have hcf : ¬(pyTruthy (some m) = false ∧ pyEqEmptyList (some m) = false) := by
      rw [falsy_nonlist_iff]; simp
    cases conflict with
    | replace =>
      rw [if_pos (Or.inr rfl)]
      simp
    | warn =>
      rw [if_neg (fun h => h.elim hcf (fun hr => Conflict.noConfusion hr))]
      rw [if_pos rfl]
      simp [eq_comm]
    | keep =>
      rw [if_neg (fun h => h.elim hcf (fun hr => Conflict.noConfusion hr))]
      rw [if_neg (fun h => Conflict.noConfusion h)]
      constructor
      · intro h; exact absurd h (hncLoop_ne_namingConflict fs fuel p q)
      · rintro ⟨h, -, -⟩; exact Conflict.noConfusion h

/-- Witness for C5: on a one-file filesystem, warn on the existing path raises
NamingConflict carrying that path. -/
theorem naming_conflict_iff_warn_witness :
    handleNameConflictC cfs0 cp0 .warn 3 = .namingConflict cp0 :=
  (naming_conflict_iff_warn cfs0 cp0 cp0 .warn 3).mpr ⟨rfl, rfl, rfl⟩

/-- C6: the existence determination maps NotFoundError and MetadataError coded
404 to a false result, propagates MetadataError with any other code and any
other exception kind, and passes a successful metadata value through; a
successful empty folder listing counts as existing in handle_name_conflict, so
with an empty-folder destination warn raises NamingConflict and keep enters
the increment loop. -/
theorem exists_mapping_and_empty_folder (fs : CFS) (p : CPath) (fuel : Nat) :
    (∀ c, existsCatch (.error ⟨.notFound, c⟩) = .ok none) ∧
    (∀ e : WbErr, e.kind = .metadataErr → e.code = 404 → existsCatch (.error e) = .ok none) ∧
    (∀ e : WbErr, e.kind = .metadataErr → e.code ≠ 404 → existsCatch (.error e) = .error e) ∧
    (∀ e : WbErr, e.kind = .otherErr → existsCatch (.error e) = .error e) ∧
    (∀ m, existsCatch (.ok m) = .ok (some m)) ∧
    (metadataC fs p = .ok (.listing 0) →
      handleNameConflictC fs p .warn fuel = .namingConflict p ∧
      handleNameConflictC fs p .keep fuel = hncLoop fs p fuel) := by
  have hcond : ∀ conflict : Conflict, conflict ≠ .replace →
      metadataC fs p = .ok (.listing 0) →
      ¬((pyTruthy (existsPy fs p) = false ∧ pyEqEmptyList (existsPy fs p) = false) ∨
        conflict = .replace) := by
    intro conflict hne hmd
    have hex : existsPy fs p = some (.listing 0) := by
      unfold existsPy; rw [hmd]; rfl
    rintro (⟨h1, h2⟩ | h3)
    · rw [hex] at h2; simp [pyEqEmptyList] at h2
    · exact hne h3
  refine ⟨fun c => rfl, ?_, ?_, ?_, fun m => rfl, ?_⟩
  · intro e h1 h2
    simp [existsCatch, h1, h2]
  · intro e h1 h2
    simp [existsCatch, h1, h2]
  · intro e h
    simp [existsCatch, h]
  · intro hmd
    constructor
    · rw [handleNameConflictC_eq]
      rw [if_neg (hcond .warn (fun h => Conflict.noConfusion h) hmd)]
      rw [if_pos rfl]
    · rw [handleNameConflictC_eq]
      rw [if_neg (hcond .keep (fun h => Conflict.noConfusion h) hmd)]
      rw [if_neg (fun h => Conflict.noConfusion h)]

/-- Witness for C6: the error-mapping and the empty-folder case at concrete
inputs: NotFoundError maps to False, and on a filesystem holding one empty
folder, warn on its path raises NamingConflict. -/
theorem exists_mapping_and_empty_folder_witness :
    existsCatch (.error ⟨.notFound, 404⟩) = .ok none ∧
    handleNameConflictC cfsD cpD .warn 3 = .namingConflict cpD :=
  ⟨(exists_mapping_and_empty_folder cfsD cpD 3).1 404,
   ((exists_mapping_and_empty_folder cfsD cpD 3).2.2.2.2.2 rfl).1⟩

/-- C4 counterexample: on a one-file filesystem, keep on the existing path
returns the incremented candidate paired with the existence result False (the
Python value False, modelled as none, whose truthiness is false) — not with a
created flag true. -/
theorem keep_returns_false_not_created_true :
    handleNameConflictC cfs0 cp0 .keep 3 = .ok cp1 none ∧
    pyTruthy none = false ∧
    (existsPy cfs0 cp0).isSome = true :=
  ⟨rfl, rfl, rfl⟩

/-- C4 (amended): for every existing path, handle_name_conflict with the keep
policy repeatedly increments the candidate name and revalidates it until a
candidate whose existence check is false, and returns that candidate paired
with False (no existing metadata at the candidate — the destination will be
newly created); the returned name differs from the input name and from every
previously tried candidate, each of which was found existing. -/
theorem keep_increments_until_free (fs : CFS) (p p2 : CPath) (ex : Option MdC)
    (fuel : Nat) (hex : (existsPy fs p).isSome = true)
    (hres : handleNameConflictC fs p .keep fuel = .ok p2 ex) :
    ex = none ∧ existsPy fs p2 = none ∧ p2.lastName ≠ p.lastName ∧
    ∃ k, 1 ≤ k ∧ p2 = iterInc k p ∧
      (∀ i, 1 ≤ i → i < k →
        (existsPy fs (iterInc i p)).isSome = true ∧
        (iterInc i p).lastName ≠ p2.lastName) := by
  rw [handleNameConflictC_eq] at hres
  have hc1 : ¬((pyTruthy (existsPy fs p) = false ∧ pyEqEmptyList (existsPy fs p) = false) ∨
      (Conflict.keep = Conflict.replace)) := by
    rintro (hfalsy | hrep)
    · rw [falsy_nonlist_iff] at hfalsy
      rw [hfalsy] at hex
      simp at hex
    · exact Conflict.noConfusion hrep
  rw [if_neg hc1] at hres
  rw [if_neg (fun h => Conflict.noConfusion h)] at hres
  obtain ⟨hexeq, hns, k, hk1, hpk, hprev⟩ := hncLoop_spec fs fuel p p2 ex hres
  subst hpk
  refine ⟨hexeq, hns, ?_, k, hk1, rfl, ?_⟩
  · rw [lastName_iterInc k p]
    intro hEq
    rw [CName.mk.injEq] at hEq
    omega
  · intro i h1 hik
    refine ⟨hprev i h1 hik, ?_⟩
    rw [lastName_iterInc i p, lastName_iterInc k p]
    intro hEq
    rw [CName.mk.injEq] at hEq
    omega

/-- Witness for C4: at the concrete one-file input, the returned candidate does
not exist and bears a different name. -/
theorem keep_increments_until_free_witness :
    existsPy cfs0 cp1 = none ∧ cp1.lastName ≠ cp0.lastName :=
  ⟨(keep_increments_until_free cfs0 cp0 cp1 none 3 rfl rfl).2.1,
   (keep_increments_until_free cfs0 cp0 cp1 none 3 rfl rfl).2.2.1⟩

/-! ### Section 4: prefix and filesystem lemmas -/

theorem prefix_antisymm {q p : Segs} (h1 : q <+: p) (h2 : p <+: q) : q = p := by
  obtain ⟨r1, hr1⟩ := h1
  have hl2 := h2.length_le
  have hr : r1 = [] := List.eq_nil_of_length_eq_zero (by
    have hlen := congrArg List.length hr1
    simp only [List.length_append] at hlen
    omega)
  subst hr
  simpa using hr1

theorem prefix_append_cases {q p r : Segs} (h : q <+: p ++ r) :
    q <+: p ∨ p <+: q :=
  List.prefix_or_prefix_of_prefix h (List.prefix_append p r)

theorem disj_not_prefix_of_under {q s p : Segs} (hd : DisjSeg q s) (hsp : s <+: p) :
    ¬(q <+: p) := by
  intro hqp
  rcases List.prefix_or_prefix_of_prefix hqp hsp with h | h
  · exact hd.1 h
  · exact hd.2 h

theorem disj_extend {q s s2 : Segs} (hd : DisjSeg q s) (hss : s <+: s2) :
    DisjSeg q s2 := by
  refine ⟨disj_not_prefix_of_under hd hss, fun h => hd.2 (hss.trans h)⟩

theorem disj_siblings {s : Segs} {n m : String} (h : n ≠ m) :
    DisjSeg (s ++ [n]) (s ++ [m]) := by
  constructor
  · intro hp
    have heq := hp.sublist.eq_of_length (by simp)
    have h2 := List.append_cancel_left heq
    simp only [List.cons.injEq, and_true] at h2
    exact h h2
  · intro hp
    have heq := hp.sublist.eq_of_length (by simp)
    have h2 := List.append_cancel_left heq
    simp only [List.cons.injEq, and_true] at h2
    exact h h2.symm

theorem strictUnder_child (s : Segs) (n : String) : StrictUnder s (s ++ [n]) := by
  refine ⟨List.prefix_append s [n], fun hEq => ?_⟩
  have := congrArg List.length hEq
  simp at this

theorem strictUnder_of_child_pref {s q : Segs} {n : String}
    (h : (s ++ [n]) <+: q) : StrictUnder s q := by
  refine ⟨(List.prefix_append s [n]).trans h, fun hEq => ?_⟩
  subst hEq
  have := h.length_le
  simp at this

theorem strictUnder_not_pref {s q : Segs} (h : StrictUnder s q) : ¬(q <+: s) := by
  intro hq
  exact h.2 (prefix_antisymm hq h.1)

theorem strictUnder_trans_child {s q : Segs} {n : String}
    (h : StrictUnder (s ++ [n]) q) : StrictUnder s q := by
  refine ⟨(List.prefix_append s [n]).trans h.1, fun hEq => ?_⟩
  subst hEq
  have := h.1.length_le
  simp at this

theorem removeTree_cons (q k : Segs) (e : Entry) (rest : FS) :
    removeTree ((k, e) :: rest) q =
      if q <+: k then removeTree rest q else (k, e) :: removeTree rest q := by
  simp only [removeTree, List.filter_cons]
  by_cases h : q <+: k
  · have hb : q.isPrefixOf k = true := List.isPrefixOf_iff_prefix.mpr h
    rw [if_pos h]
    simp [hb]
  · have hb : q.isPrefixOf k = false := by
      rw [← Bool.not_eq_true, List.isPrefixOf_iff_prefix]
      exact h
    rw [if_neg h]
    simp [hb]

theorem lookupFS_removeTree {q p : Segs} (h : ¬(q <+: p)) (fs : FS) :
    lookupFS (removeTree fs q) p = lookupFS fs p := by
  induction fs with
  | nil => rfl
  | cons x rest ih =>
    obtain ⟨k, e⟩ := x
    rw [removeTree_cons]
    by_cases hk : q <+: k
    · rw [if_pos hk, ih]
      have hne : k ≠ p := fun hEq => h (hEq ▸ hk)
      simp [lookupFS, hne]
    · rw [if_neg hk]
      simp only [lookupFS]
      by_cases hkp : k = p
      · rw [if_pos hkp, if_pos hkp]
      · rw [if_neg hkp, if_neg hkp, ih]

theorem lookupFS_removeTree_none {q p : Segs} (h : q <+: p) (fs : FS) :
    lookupFS (removeTree fs q) p = none := by
  induction fs with
  | nil => rfl
  | cons x rest ih =>
    obtain ⟨k, e⟩ := x
    rw [removeTree_cons]
    by_cases hk : q <+: k
    · rw [if_pos hk]; exact ih
    · rw [if_neg hk]
      have hne : k ≠ p := fun hEq => hk (hEq ▸ h)
      simp [lookupFS, hne, ih]

theorem dropLast_concat_getLastD {α : Type} : ∀ (k : List α), k ≠ [] →
    ∀ d : α, k.dropLast ++ [k.getLastD d] = k := by
  intro k
  induction k with
  | nil => intro h; exact absurd rfl h
  | cons a t ih =>
    intro _ d
    cases t with
    | nil => rfl
    | cons b t2 =>
      rw [List.dropLast_cons₂, List.getLastD_cons, List.cons_append,
        ih (by simp) a]

theorem childNames_cons (k : Segs) (e : Entry) (rest : FS) (p : Segs) :
    childNames ((k, e) :: rest) p =
      if k ≠ [] ∧ k.dropLast = p then (k.getLastD "", e.isDirE) :: childNames rest p
      else childNames rest p := rfl

theorem childNames_removeTree {q p : Segs} (h : ∀ n : String, ¬(q <+: p ++ [n]))
    (fs : FS) : childNames (removeTree fs q) p = childNames fs p := by
  induction fs with
  | nil => rfl
  | cons x rest ih =>
    obtain ⟨k, e⟩ := x
    rw [removeTree_cons]
    by_cases hk : q <+: k
    · rw [if_pos hk]
      have hnc : ¬(k ≠ [] ∧ k.dropLast = p) := by
        rintro ⟨hne, hdl⟩
        have hconcat := dropLast_concat_getLastD k hne ""
        rw [hdl] at hconcat
        rw [← hconcat] at hk
        exact h _ hk
      rw [ih, childNames_cons, if_neg hnc]
    · rw [if_neg hk, childNames_cons, childNames_cons]
      by_cases hc : k ≠ [] ∧ k.dropLast = p
      · rw [if_pos hc, if_pos hc, ih]
      · rw [if_neg hc, if_neg hc, ih]

theorem removeTree_removeTree {s q : Segs} (h : s <+: q) (fs : FS) :
    removeTree (removeTree fs q) s = removeTree fs s := by
  induction fs with
  | nil => rfl
  | cons x rest ih =>
    obtain ⟨k, e⟩ := x
    rw [removeTree_cons]
    by_cases hk : q <+: k
    · rw [if_pos hk, ih, removeTree_cons, if_pos (h.trans hk)]
    · rw [if_neg hk, removeTree_cons, removeTree_cons]
      by_cases hs : s <+: k
      · rw [if_pos hs, if_pos hs, ih]
      · rw [if_neg hs, if_neg hs, ih]

theorem keysNodup_removeTree {fs : FS} (h : keysNodup fs) (q : Segs) :
    keysNodup (removeTree fs q) :=
  List.Nodup.sublist ((List.filter_sublist fs).map _) h

theorem childNames_mem_keys {p : Segs} {nb : String × Bool} :
    ∀ {fs : FS}, nb ∈ childNames fs p → (p ++ [nb.1]) ∈ fs.map (fun x => x.1) := by
  intro fs
  induction fs with
  | nil => intro h; simp [childNames] at h
  | cons x rest ih =>
    obtain ⟨k, e⟩ := x
    intro h
    rw [childNames_cons] at h
    by_cases hc : k ≠ [] ∧ k.dropLast = p
    · rw [if_pos hc] at h
      rcases List.mem_cons.mp h with hEq | hmem
      · have hconcat := dropLast_concat_getLastD k hc.1 ""
        rw [hc.2] at hconcat
        subst hEq
        simp only [List.map_cons, List.mem_cons]
        left
        exact hconcat
      · simp only [List.map_cons, List.mem_cons]
        right
        exact ih hmem
    · rw [if_neg hc] at h
      simp only [List.map_cons, List.mem_cons]
      right
      exact ih h

theorem childNames_names_nodup (p : Segs) :
    ∀ {fs : FS}, keysNodup fs → ((childNames fs p).map (fun nb => nb.1)).Nodup := by
  intro fs
  induction fs with
  | nil => intro _; simp [childNames]
  | cons x rest ih =>
    obtain ⟨k, e⟩ := x
    intro h
    have hkey : k ∉ rest.map (fun x => x.1) := by
      unfold keysNodup at h
      simp only [List.map_cons, List.nodup_cons] at h
      exact h.1
    have hrest : keysNodup rest := by
      unfold keysNodup at h ⊢
      simp only [List.map_cons, List.nodup_cons] at h
      exact h.2
    rw [childNames_cons]
    by_cases hc : k ≠ [] ∧ k.dropLast = p
    · rw [if_pos hc]
      simp only [List.map_cons, List.nodup_cons]
      refine ⟨?_, ih hrest⟩
      intro hmem
      obtain ⟨nb, hnb, hname⟩ := List.mem_map.mp hmem
      have hk := childNames_mem_keys hnb
      rw [hname] at hk
      have hconcat := dropLast_concat_getLastD k hc.1 ""
      rw [hc.2] at hconcat
      rw [hconcat] at hk
      exact hkey hk
    · rw [if_neg hc]
      exact ih hrest

theorem Rem.mono {P Q : Segs → Prop} (hPQ : ∀ q, P q → Q q) {a b : FS}
    (h : Rem P a b) : Rem Q a b := by
  induction h with
  | refl => exact Rem.refl _
  | step q hrec hq ih => exact Rem.step q ih (hPQ q hq)

theorem Rem.trans_rel {P : Segs → Prop} {a b c : FS} (h1 : Rem P a b)
    (h2 : Rem P b c) : Rem P a c := by
  induction h2 with
  | refl => exact h1
  | step q hrec hq ih => exact Rem.step q ih hq

theorem Rem.lookup_eq {P : Segs → Prop} {p : Segs} (hP : ∀ q, P q → ¬(q <+: p))
    {a b : FS} (h : Rem P a b) : lookupFS b p = lookupFS a p := by
  induction h with
  | refl => rfl
  | step q hrec hq ih => rw [lookupFS_removeTree (hP q hq), ih]

theorem Rem.childNames_eq {P : Segs → Prop} {p : Segs}
    (hP : ∀ q, P q → ∀ n : String, ¬(q <+: p ++ [n]))
    {a b : FS} (h : Rem P a b) : childNames b p = childNames a p := by
  induction h with
  | refl => rfl
  | step q hrec hq ih => rw [childNames_removeTree (hP q hq), ih]

theorem Rem.collapse {P : Segs → Prop} {s : Segs} (hP : ∀ q, P q → s <+: q)
    {a b : FS} (h : Rem P a b) : removeTree b s = removeTree a s := by
  induction h with
  | refl => rfl
  | step q hrec hq ih => rw [removeTree_removeTree (hP q hq), ih]

theorem Rem.keysNodup_of {P : Segs → Prop} {a b : FS} (h : Rem P a b)
    (ha : keysNodup a) : keysNodup b := by
  induction h with
  | refl => exact ha
  | step q hrec hq ih => exact keysNodup_removeTree ih q

/-! ### Section 4: batch decomposition lemmas -/

theorem codeBatchesAux_congr {α : Type} (op : Nat) :
    ∀ (f : Nat) (l : List α), l.length ≤ f →
      codeBatchesAux op f l = codeBatchesAux op l.length l := by
  intro f
  induction f using Nat.strong_induction_on with
  | _ f ih =>
    intro l hl
    cases f with
    | zero =>
      have hnil : l = [] := List.eq_nil_of_length_eq_zero (by omega)
      subst hnil; rfl
    | succ f2 =>
      cases l with
      | nil => rfl
      | cons x xs =>
        simp only [List.length_cons] at hl
        simp only [codeBatchesAux, List.length_cons]
        by_cases hop : op = 0
        · rw [if_pos hop, if_pos hop]
        · rw [if_neg hop, if_neg hop]
          congr 1
          have hd : ((x :: xs).drop op).length ≤ f2 := by
            simp only [List.length_drop, List.length_cons]
            omega
          have hd2 : ((x :: xs).drop op).length ≤ xs.length := by
            simp only [List.length_drop, List.length_cons]
            omega
          rw [ih f2 (by omega) _ hd, ih xs.length (by omega) _ hd2]

theorem codeBatches_cons {α : Type} (op : Nat) (x : α) (xs : List α) :
    codeBatches op (x :: xs) =
      if op = 0 then []
      else (x :: xs).take op :: codeBatches op ((x :: xs).drop op) := by
  unfold codeBatches
  simp only [List.length_cons, codeBatchesAux]
  by_cases hop : op = 0
  · rw [if_pos hop, if_pos hop]
  · rw [if_neg hop, if_neg hop]
    congr 1
    have hd2 : ((x :: xs).drop op).length ≤ xs.length := by
      simp only [List.length_drop, List.length_cons]
      omega
    exact codeBatchesAux_congr op xs.length _ hd2

theorem codeBatchesAux_flatten {α : Type} {op : Nat} (hop : 1 ≤ op) :
    ∀ (f : Nat) (l : List α), l.length ≤ f → (codeBatchesAux op f l).flatten = l := by
  intro f
  induction f with
  | zero =>
    intro l hl
    have hnil : l = [] := List.eq_nil_of_length_eq_zero (by omega)
    subst hnil; rfl
  | succ f ih =>
    intro l hl
    cases l with
    | nil => rfl
    | cons x xs =>
      simp only [List.length_cons] at hl
      simp only [codeBatchesAux, if_neg (by omega : ¬op = 0), List.flatten_cons]
      rw [ih _ (by simp only [List.length_drop, List.length_cons]; omega)]
      exact List.take_append_drop op (x :: xs)

theorem codeBatches_flatten {α : Type} {op : Nat} (hop : 1 ≤ op) (l : List α) :
    (codeBatches op l).flatten = l :=
  codeBatchesAux_flatten hop l.length l (le_refl _)

theorem codeBatchesAux_sizes {α : Type} {op : Nat} :
    ∀ (f : Nat) (l b : List α), b ∈ codeBatchesAux op f l → b.length ≤ op := by
  intro f
  induction f with
  | zero => intro l b hb; simp [codeBatchesAux] at hb
  | succ f ih =>
    intro l b hb
    cases l with
    | nil => simp [codeBatchesAux] at hb
    | cons x xs =>
      simp only [codeBatchesAux] at hb
      by_cases hop : op = 0
      · rw [if_pos hop] at hb; simp at hb
      · rw [if_neg hop] at hb
        rcases List.mem_cons.mp hb with hEq | hmem
        · subst hEq
          rw [List.length_take]
          exact min_le_left _ _
        · exact ih _ _ hmem

theorem codeBatches_sizes {α : Type} {op : Nat} (l : List α) {b : List α}
    (hb : b ∈ codeBatches op l) : b.length ≤ op :=
  codeBatchesAux_sizes l.length l b hb

/-! ### Section 4: step equations for the loop functions -/

theorem childStep_cons_error
    {child : World → WbPath → WbPath → World × Except Nat (Md × Bool)}
    {w s d wa e} (n : String) (isF : Bool) (rest : List (String × Bool))
    (hc : child w (WbPath.child s n isF) (WbPath.child d n isF) = (wa, .error e)) :
    childStep child w s d ((n, isF) :: rest) = (wa, .error e) := by
  simp only [childStep]
  rw [hc]

theorem childStep_cons_ok
    {child : World → WbPath → WbPath → World × Except Nat (Md × Bool)}
    {w s d wa md} (n : String) (isF : Bool) (rest : List (String × Bool))
    (hc : child w (WbPath.child s n isF) (WbPath.child d n isF) = (wa, .ok md)) :
    childStep child w s d ((n, isF) :: rest) =
      ((childStep child wa s d rest).1,
        (childStep child wa s d rest).2.map (fun mds => md.1 :: mds)) := by
  simp only [childStep]
  rw [hc]
  cases h2 : childStep child wa s d rest with
  | mk wb rb => cases rb <;> simp [Except.map]

theorem batchStep_cons_error
    {children : World → WbPath → WbPath → List (String × Bool) → World × Except Nat (List Md)}
    {w s d wa e} (b : List (String × Bool)) (bs : List (List (String × Bool)))
    (hc : children w s d b = (wa, .error e)) :
    batchStep children w s d (b :: bs) = (wa, .error e) := by
  simp only [batchStep]
  rw [hc]

theorem batchStep_cons_ok
    {children : World → WbPath → WbPath → List (String × Bool) → World × Except Nat (List Md)}
    {w s d wa m1} (b : List (String × Bool)) (bs : List (List (String × Bool)))
    (hc : children w s d b = (wa, .ok m1)) :
    batchStep children w s d (b :: bs) =
      ((batchStep children wa s d bs).1,
        (batchStep children wa s d bs).2.map (fun m2 => m1 ++ m2)) := by
  simp only [batchStep]
  rw [hc]
  cases h2 : batchStep children wa s d bs with
  | mk wb rb => cases rb <;> simp [Except.map]

theorem moveWrap_false (r : World × Except Nat (Md × Bool)) (s : WbPath) :
    moveWrap false r s = r := rfl

theorem moveWrap_true_error (w1 : World) (e : Nat) (s : WbPath) :
    moveWrap true (w1, .error e) s = (w1, .error e) := rfl

theorem moveWrap_true_ok_delete {w1 : World} {s : WbPath} {src1 : FS}
    (md : Md × Bool) (h : deleteFS w1.src s.segs = .ok src1) :
    moveWrap true (w1, .ok md) s = (⟨src1, w1.dst⟩, .ok md) := by
  simp only [moveWrap, if_pos]
  rw [h]

theorem moveWrap_true_ok_srcdst {srcfs dstfs src1 : FS} {s : WbPath}
    (md : Md × Bool) (h : deleteFS srcfs s.segs = .ok src1) :
    moveWrap true ((⟨srcfs, dstfs⟩ : World), .ok md) s = (⟨src1, dstfs⟩, .ok md) := by
  simp only [moveWrap]
  rw [h]
  simp

theorem genOp_file {s : WbPath} (mv : Bool) (op fuel : Nat) (w : World) (d : WbPath)
    (h : s.isDir = false) :
    genOp mv op fuel w s d = moveWrap mv (fileCopy w s d) s := by
  cases fuel <;> simp [genOp, h]

theorem genOp_zero_dir {s : WbPath} (mv : Bool) (op : Nat) (w : World) (d : WbPath)
    (h : s.isDir = true) :
    genOp mv op 0 w s d = moveWrap mv (w, .error 599) s := by
  simp [genOp, h]

theorem genOp_succ_dir {s : WbPath} (mv : Bool) (op fuel : Nat) (w : World) (d : WbPath)
    (h : s.isDir = true) :
    genOp mv op (fuel + 1) w s d =
      moveWrap mv (folderFileOp (genOp mv op fuel) op w s d) s := by
  simp [genOp, h]

theorem folderFileOp_init_error
    {child : World → WbPath → WbPath → World × Except Nat (Md × Bool)}
    {op : Nat} {w : World} {s d : WbPath} {e : Nat}
    (h : folderOpInit (deleteFS w.dst d.segs) w.dst = .error e) :
    folderFileOp child op w s d = (w, .error e) := by
  simp only [folderFileOp]
  rw [h]

theorem folderFileOp_md_error
    {child : World → WbPath → WbPath → World × Except Nat (Md × Bool)}
    {op : Nat} {w : World} {s d : WbPath} {init : FS × Bool} {e : Nat}
    (h1 : folderOpInit (deleteFS w.dst d.segs) w.dst = .ok init)
    (h2 : metadataList w.src s.segs = .error e) :
    folderFileOp child op w s d = (⟨w.src, setFS init.1 d.segs .dir⟩, .error e) := by
  simp only [folderFileOp]
  rw [h1, h2]

theorem folderFileOp_items
    {child : World → WbPath → WbPath → World × Except Nat (Md × Bool)}
    {op : Nat} {w : World} {s d : WbPath} {init : FS × Bool}
    {items : List (String × Bool)}
    (h1 : folderOpInit (deleteFS w.dst d.segs) w.dst = .ok init)
    (h2 : metadataList w.src s.segs = .ok items) :
    folderFileOp child op w s d =
      ((batchStep (childStep child) ⟨w.src, setFS init.1 d.segs .dir⟩ s d
          (codeBatches op items)).1,
        (batchStep (childStep child) ⟨w.src, setFS init.1 d.segs .dir⟩ s d
          (codeBatches op items)).2.map
          (fun mds => (Md.mk (lastString d.segs) true mds, init.2))) := by
  simp only [folderFileOp]
  rw [h1, h2]
  simp only []
  cases hb : batchStep (childStep child) ⟨w.src, setFS init.1 d.segs .dir⟩ s d
      (codeBatches op items) with
  | mk wb rb => cases rb <;> simp [Except.map]

/-! ### Section 4: child loop composition lemmas -/

theorem childStep_append_error
    {child : World → WbPath → WbPath → World × Except Nat (Md × Bool)}
    {s d : WbPath} :
    ∀ {xs : List (String × Bool)} {w w1 : World} {e : Nat},
      childStep child w s d xs = (w1, .error e) → ∀ ys,
      childStep child w s d (xs ++ ys) = (w1, .error e) := by
  intro xs
  induction xs with
  | nil => intro w w1 e h ys; simp [childStep] at h
  | cons nb xs ih =>
    intro w w1 e h ys
    obtain ⟨n, isF⟩ := nb
    rw [List.cons_append]
    cases hc : child w (WbPath.child s n isF) (WbPath.child d n isF) with
    | mk wa ra =>
      cases ra with
      | error e2 =>
        rw [childStep_cons_error n isF xs hc] at h
        rw [childStep_cons_error n isF (xs ++ ys) hc]
        exact h
      | ok md =>
        rw [childStep_cons_ok n isF xs hc] at h
        rw [childStep_cons_ok n isF (xs ++ ys) hc]
        cases h2 : childStep child wa s d xs with
        | mk wb rb =>
          rw [h2] at h
          cases rb with
          | error eb =>
            simp only [Except.map, Prod.mk.injEq, Except.error.injEq] at h
            obtain ⟨hwb, heb⟩ := h
            subst hwb
            subst heb
            rw [ih h2 ys]
            simp [Except.map]
          | ok mb => simp [Except.map] at h

theorem childStep_append_ok
    {child : World → WbPath → WbPath → World × Except Nat (Md × Bool)}
    {s d : WbPath} :
    ∀ {xs : List (String × Bool)} {w w1 : World} {m1 : List Md},
      childStep child w s d xs = (w1, .ok m1) → ∀ ys,
      childStep child w s d (xs ++ ys) =
        ((childStep child w1 s d ys).1,
          (childStep child w1 s d ys).2.map (fun m2 => m1 ++ m2)) := by
  intro xs
  induction xs with
  | nil =>
    intro w w1 m1 h ys
    simp only [childStep, Prod.mk.injEq, Except.ok.injEq] at h
    obtain ⟨hw, hm⟩ := h
    subst hw
    rw [← hm]
    simp only [List.nil_append]
    cases h3 : childStep child w s d ys with
    | mk w3 r3 => cases r3 <;> simp [Except.map]
  | cons nb xs ih =>
    intro w w1 m1 h ys
    obtain ⟨n, isF⟩ := nb
    rw [List.cons_append]
    cases hc : child w (WbPath.child s n isF) (WbPath.child d n isF) with
    | mk wa ra =>
      cases ra with
      | error e2 =>
        rw [childStep_cons_error n isF xs hc] at h
        simp at h
      | ok md =>
        rw [childStep_cons_ok n isF xs hc] at h
        rw [childStep_cons_ok n isF (xs ++ ys) hc]
        cases h2 : childStep child wa s d xs with
        | mk wb rb =>
          rw [h2] at h
          cases rb with
          | error eb => simp [Except.map] at h
          | ok mb =>
            simp only [Except.map, Prod.mk.injEq, Except.ok.injEq] at h
            obtain ⟨hwb, hmb⟩ := h
            subst hwb
            rw [← hmb]
            rw [ih h2 ys]
            cases h3 : childStep child wb s d ys with
            | mk w3 r3 => cases r3 <;> simp [Except.map]

theorem batchStep_childStep_flatten
    (child : World → WbPath → WbPath → World × Except Nat (Md × Bool))
    (s d : WbPath) :
    ∀ (bs : List (List (String × Bool))) (w : World),
      batchStep (childStep child) w s d bs = childStep child w s d bs.flatten := by
  intro bs
  induction bs with
  | nil => intro w; rfl
  | cons b bs ih =>
    intro w
    rw [List.flatten_cons]
    cases hc : childStep child w s d b with
    | mk w1 r1 =>
      cases r1 with
      | error e =>
        rw [batchStep_cons_error b bs hc, childStep_append_error hc]
      | ok m1 =>
        rw [batchStep_cons_ok b bs hc, childStep_append_ok hc, ih w1]

/-! ### Section 4: small step equations and source preservation -/

theorem downloadFS_congr {a b : FS} {p : Segs} (h : lookupFS a p = lookupFS b p) :
    downloadFS a p = downloadFS b p := by
  unfold downloadFS
  rw [h]

theorem downloadFS_ok_lookup {fs : FS} {p : Segs} {stream : Nat × Option String}
    (h : downloadFS fs p = .ok stream) :
    lookupFS fs p = some (.file stream.1 stream.2) := by
  unfold downloadFS at h
  cases hl : lookupFS fs p with
  | none => rw [hl] at h; exact absurd h (by simp)
  | some e =>
    cases e with
    | file c sn =>
      rw [hl] at h
      simp only [Except.ok.injEq] at h
      rw [← h]
    | dir => rw [hl] at h; exact absurd h (by simp)

theorem deleteFS_some {fs : FS} {p : Segs} {e : Entry} (h : lookupFS fs p = some e) :
    deleteFS fs p = .ok (removeTree fs p) := by
  unfold deleteFS
  rw [h]
  simp

theorem deleteFS_none {fs : FS} {p : Segs} (h : lookupFS fs p = none) :
    deleteFS fs p = .error 404 := by
  unfold deleteFS
  rw [h]
  simp

theorem fileCopy_error {w : World} {s d : WbPath} {e : Nat}
    (h : downloadFS w.src s.segs = .error e) : fileCopy w s d = (w, .error e) := by
  unfold fileCopy
  rw [h]

theorem fileCopy_ok {w : World} {s d : WbPath} {stream : Nat × Option String}
    (h : downloadFS w.src s.segs = .ok stream) :
    fileCopy w s d =
      (⟨w.src, (uploadFS w.dst stream (renameIfStream d stream.2).segs).1⟩,
        .ok (uploadFS w.dst stream (renameIfStream d stream.2).segs).2) := by
  unfold fileCopy
  rw [h]

theorem metadataList_congr {a b : FS} {p : Segs} (h1 : lookupFS a p = lookupFS b p)
    (h2 : childNames a p = childNames b p) : metadataList a p = metadataList b p := by
  unfold metadataList
  rw [h1, h2]

theorem metadataList_ok_eq {fs : FS} {p : Segs} {items : List (String × Bool)}
    (h : metadataList fs p = .ok items) : items = childNames fs p := by
  unfold metadataList at h
  by_cases hp : p = []
  · rw [if_pos hp] at h
    simp only [Except.ok.injEq] at h
    rw [← h]
  · rw [if_neg hp] at h
    cases hl : lookupFS fs p with
    | none => rw [hl] at h; exact absurd h (by simp)
    | some e =>
      cases e with
      | file c sn => rw [hl] at h; exact absurd h (by simp)
      | dir =>
        rw [hl] at h
        simp only [Except.ok.injEq] at h
        rw [← h]

theorem metadataList_ok_lookup {fs : FS} {p : Segs} {items : List (String × Bool)}
    (hp : p ≠ []) (h : metadataList fs p = .ok items) :
    lookupFS fs p = some .dir := by
  unfold metadataList at h
  rw [if_neg hp] at h
  cases hl : lookupFS fs p with
  | none => rw [hl] at h; exact absurd h (by simp)
  | some e =>
    cases e with
    | file c sn => rw [hl] at h; exact absurd h (by simp)
    | dir => rfl

theorem fileCopy_src (w : World) (s d : WbPath) : (fileCopy w s d).1.src = w.src := by
  cases h : downloadFS w.src s.segs with
  | error e => rw [fileCopy_error h]
  | ok stream => rw [fileCopy_ok h]

theorem childStep_src
    {child : World → WbPath → WbPath → World × Except Nat (Md × Bool)}
    (hchild : ∀ w s d, (child w s d).1.src = w.src) :
    ∀ (items : List (String × Bool)) (w : World) (s d : WbPath),
      (childStep child w s d items).1.src = w.src := by
  intro items
  induction items with
  | nil => intro w s d; rfl
  | cons nb rest ih =>
    intro w s d
    obtain ⟨n, isF⟩ := nb
    cases hc : child w (WbPath.child s n isF) (WbPath.child d n isF) with
    | mk wa ra =>
      have h1 := hchild w (WbPath.child s n isF) (WbPath.child d n isF)
      rw [hc] at h1
      cases ra with
      | error e =>
        rw [childStep_cons_error n isF rest hc]
        exact h1
      | ok md =>
        rw [childStep_cons_ok n isF rest hc]
        exact (ih wa s d).trans h1

theorem folderFileOp_src
    {child : World → WbPath → WbPath → World × Except Nat (Md × Bool)}
    (hchild : ∀ w s d, (child w s d).1.src = w.src)
    (op : Nat) (w : World) (s d : WbPath) :
    (folderFileOp child op w s d).1.src = w.src := by
  cases h1 : folderOpInit (deleteFS w.dst d.segs) w.dst with
  | error e => rw [folderFileOp_init_error h1]
  | ok init =>
    cases h2 : metadataList w.src s.segs with
    | error e => rw [folderFileOp_md_error h1 h2]
    | ok items =>
      rw [folderFileOp_items h1 h2, batchStep_childStep_flatten]
      exact childStep_src hchild _ _ _ _

theorem genOp_false_src : ∀ (fuel op : Nat) (w : World) (s d : WbPath),
    (genOp false op fuel w s d).1.src = w.src := by
  intro fuel
  induction fuel with
  | zero =>
    intro op w s d
    cases hsd : s.isDir
    · rw [genOp_file false op 0 w d hsd, moveWrap_false]
      exact fileCopy_src w s d
    · rw [genOp_zero_dir false op w d hsd, moveWrap_false]
  | succ f ih =>
    intro op w s d
    cases hsd : s.isDir
    · rw [genOp_file false op (f + 1) w d hsd, moveWrap_false]
      exact fileCopy_src w s d
    · rw [genOp_succ_dir false op f w d hsd, moveWrap_false]
      exact folderFileOp_src (fun w2 s2 d2 => ih op w2 s2 d2) op w s d

/-! ### Section 4: the move and copy correspondence, file case -/

theorem fileMain (op fuel : Nat) (s d : WbPath) (wC wM : World)
    (hsd : s.isDir = false)
    (hrem : Rem (fun q => DisjSeg q s.segs) wC.src wM.src)
    (hdst : wC.dst = wM.dst) :
    GenConcl op fuel s d wC wM := by
  have hlk : lookupFS wM.src s.segs = lookupFS wC.src s.segs :=
    Rem.lookup_eq (fun q hq => hq.1) hrem
  unfold GenConcl
  rw [genOp_file false op fuel wC d hsd, genOp_file true op fuel wM d hsd,
    moveWrap_false]
  cases hdl : downloadFS wC.src s.segs with
  | error e =>
    have hdlM : downloadFS wM.src s.segs = .error e := by
      rw [downloadFS_congr hlk]; exact hdl
    rw [fileCopy_error hdl, fileCopy_error hdlM, moveWrap_true_error]
    refine ⟨rfl, hdst.symm, ?_, ?_⟩
    · intro v hv; exact absurd hv (by simp)
    · intro e2 he; exact Rem.refl _
  | ok stream =>
    have hdlM : downloadFS wM.src s.segs = .ok stream := by
      rw [downloadFS_congr hlk]; exact hdl
    have hlkM : lookupFS wM.src s.segs = some (.file stream.1 stream.2) :=
      hlk.trans (downloadFS_ok_lookup hdl)
    rw [fileCopy_ok hdl, fileCopy_ok hdlM, ← hdst]
    rw [moveWrap_true_ok_srcdst _ (deleteFS_some hlkM)]
    refine ⟨rfl, rfl, ?_, ?_⟩
    · intro v hv; rfl
    · intro e he; exact absurd he (by simp)

/-! ### Section 4: the move and copy correspondence, children loop -/

theorem chMain (op fuel : Nat)
    (IH : ∀ (s d : WbPath) (wC wM : World),
      1 ≤ op → s.segs ≠ [] → keysNodup wM.src →
      Rem (fun q => DisjSeg q s.segs) wC.src wM.src → wC.dst = wM.dst →
      GenConcl op fuel s d wC wM) :
    ∀ (items : List (String × Bool)) (s d : WbPath) (wC wM : World),
      1 ≤ op → keysNodup wM.src →
      ((items.map (fun nb => nb.1)).Nodup) →
      Rem (fun q => ∀ nb ∈ items, DisjSeg q (s.segs ++ [nb.1])) wC.src wM.src →
      wC.dst = wM.dst →
      (childStep (genOp true op fuel) wM s d items).2 =
        (childStep (genOp false op fuel) wC s d items).2 ∧
      (childStep (genOp true op fuel) wM s d items).1.dst =
        (childStep (genOp false op fuel) wC s d items).1.dst ∧
      Rem (fun q => ∃ nb ∈ items, (s.segs ++ [nb.1]) <+: q) wM.src
        (childStep (genOp true op fuel) wM s d items).1.src := by
  intro items
  induction items with
  | nil =>
    intro s d wC wM hop hnodk hnodn hrem hdst
    exact ⟨rfl, hdst.symm, Rem.refl _⟩
  | cons nb rest ihrest =>
    intro s d wC wM hop hnodk hnodn hrem hdst
    obtain ⟨n, isF⟩ := nb
    have hremC : Rem (fun q => DisjSeg q (s.segs ++ [n])) wC.src wM.src := by
      refine Rem.mono ?_ hrem
      intro q hq
      exact hq (n, isF) (List.mem_cons_self _ _)
    have hGC := IH (WbPath.child s n isF) (WbPath.child d n isF) wC wM hop
      (by simp [WbPath.child]) hnodk hremC hdst
    obtain ⟨hg2, hgdst, hgok, hgerr⟩ := hGC
    cases hrc : genOp false op fuel wC (WbPath.child s n isF) (WbPath.child d n isF) with
    | mk wc1 rc1 =>
      cases hrmfull : genOp true op fuel wM (WbPath.child s n isF) (WbPath.child d n isF) with
      | mk wm1 rm1 =>
        have h2eq : rm1 = rc1 := by
          rw [hrc, hrmfull] at hg2
          simpa using hg2
        have hdst1 : wm1.dst = wc1.dst := by
          rw [hrc, hrmfull] at hgdst
          simpa using hgdst
        subst h2eq
        cases rm1 with
        | error e =>
          rw [childStep_cons_error n isF rest hrc, childStep_cons_error n isF rest hrmfull]
          refine ⟨rfl, hdst1, ?_⟩
          have hre := hgerr e (by rw [hrc])
          rw [hrmfull] at hre
          refine Rem.mono ?_ hre
          intro q hq
          exact ⟨(n, isF), List.mem_cons_self _ _, hq.1⟩
        | ok v =>
          rw [childStep_cons_ok n isF rest hrc, childStep_cons_ok n isF rest hrmfull]
          have hsrc1 : wm1.src = removeTree wM.src (s.segs ++ [n]) := by
            have hx := hgok v (by rw [hrc])
            rw [hrmfull] at hx
            exact hx
          have hcsrc : wc1.src = wC.src := by
            have hx := genOp_false_src fuel op wC (WbPath.child s n isF) (WbPath.child d n isF)
            rw [hrc] at hx
            exact hx
          have hnodk1 : keysNodup wm1.src := by
            rw [hsrc1]
            exact keysNodup_removeTree hnodk _
          have hnodn1 : (rest.map (fun nb => nb.1)).Nodup := by
            simp only [List.map_cons, List.nodup_cons] at hnodn
            exact hnodn.2
          have hnotmem : n ∉ rest.map (fun nb => nb.1) := by
            simp only [List.map_cons, List.nodup_cons] at hnodn
            exact hnodn.1
          have hrem1 : Rem (fun q => ∀ nb ∈ rest, DisjSeg q (s.segs ++ [nb.1]))
              wc1.src wm1.src := by
            rw [hcsrc, hsrc1]
            refine Rem.step (s.segs ++ [n]) ?_ ?_
            · refine Rem.mono ?_ hrem
              intro q hq nb hnb
              exact hq nb (List.mem_cons_of_mem _ hnb)
            · intro nb hnb
              refine disj_siblings ?_
              intro hEq
              exact hnotmem (by rw [hEq]; exact List.mem_map_of_mem _ hnb)
          have hrest := ihrest s d wc1 wm1 hop hnodk1 hnodn1 hrem1 hdst1.symm
          obtain ⟨hr2, hrdst, hrrem⟩ := hrest
          refine ⟨?_, ?_, ?_⟩
          · rw [hr2]
          · exact hrdst
          · have hstep : Rem (fun q => ∃ nb ∈ (n, isF) :: rest, (s.segs ++ [nb.1]) <+: q)
                wM.src wm1.src := by
              rw [hsrc1]
              refine Rem.step (s.segs ++ [n]) (Rem.refl _) ?_
              exact ⟨(n, isF), List.mem_cons_self _ _, List.prefix_refl _⟩
            refine Rem.trans_rel hstep ?_
            refine Rem.mono ?_ hrrem
            intro q hq
            obtain ⟨nb2, hnb2, hpre⟩ := hq
            exact ⟨nb2, List.mem_cons_of_mem _ hnb2, hpre⟩

/-! ### Section 4: the move and copy correspondence -/

theorem genMain : ∀ (fuel op : Nat) (s d : WbPath) (wC wM : World),
    1 ≤ op → s.segs ≠ [] → keysNodup wM.src →
    Rem (fun q => DisjSeg q s.segs) wC.src wM.src → wC.dst = wM.dst →
    GenConcl op fuel s d wC wM := by
  intro fuel
  induction fuel with
  | zero =>
    intro op s d wC wM hop hne hnodk hrem hdst
    cases hsd : s.isDir
    case false => exact fileMain op 0 s d wC wM hsd hrem hdst
    case true =>
      unfold GenConcl
      rw [genOp_zero_dir false op wC d hsd, genOp_zero_dir true op wM d hsd,
        moveWrap_false, moveWrap_true_error]
      exact ⟨rfl, hdst.symm, fun v hv => absurd hv (by simp), fun e he => Rem.refl _⟩
  | succ f ih =>
    intro op s d wC wM hop hne hnodk hrem hdst
    cases hsd : s.isDir
    case false => exact fileMain op (f + 1) s d wC wM hsd hrem hdst
    case true =>
      unfold GenConcl
      rw [genOp_succ_dir false op f wC d hsd, genOp_succ_dir true op f wM d hsd,
        moveWrap_false]
      cases hinit : folderOpInit (deleteFS wC.dst d.segs) wC.dst with
      | error e =>
        have hinitM : folderOpInit (deleteFS wM.dst d.segs) wM.dst = .error e := by
          rw [← hdst]; exact hinit
        rw [folderFileOp_init_error hinit, folderFileOp_init_error hinitM,
          moveWrap_true_error]
        exact ⟨rfl, hdst.symm, fun v hv => absurd hv (by simp), fun e2 he => Rem.refl _⟩
      | ok init =>
        have hinitM : folderOpInit (deleteFS wM.dst d.segs) wM.dst = .ok init := by
          rw [← hdst]; exact hinit
        have hlk : lookupFS wM.src s.segs = lookupFS wC.src s.segs :=
          Rem.lookup_eq (fun q hq => hq.1) hrem
        have hcn : childNames wM.src s.segs = childNames wC.src s.segs :=
          Rem.childNames_eq
            (fun q hq nn => disj_not_prefix_of_under hq (List.prefix_append _ _)) hrem
        have hmdeq : metadataList wM.src s.segs = metadataList wC.src s.segs :=
          metadataList_congr hlk hcn
        cases hmd : metadataList wC.src s.segs with
        | error e =>
          have hmdM : metadataList wM.src s.segs = .error e := hmdeq.trans hmd
          rw [folderFileOp_md_error hinit hmd, folderFileOp_md_error hinitM hmdM,
            moveWrap_true_error]
          exact ⟨rfl, rfl, fun v hv => absurd hv (by simp), fun e2 he => Rem.refl _⟩
        | ok items =>
          have hmdM : metadataList wM.src s.segs = .ok items := hmdeq.trans hmd
          rw [folderFileOp_items hinit hmd, folderFileOp_items hinitM hmdM,
            batchStep_childStep_flatten, batchStep_childStep_flatten,
            codeBatches_flatten hop items]
          have hitems : items = childNames wM.src s.segs := metadataList_ok_eq hmdM
          have hnodn : (items.map (fun nb => nb.1)).Nodup := by
            rw [hitems]
            exact childNames_names_nodup _ hnodk
          have hch := chMain op f
            (fun s2 d2 wC2 wM2 h1 h2 h3 h4 h5 => ih op s2 d2 wC2 wM2 h1 h2 h3 h4 h5)
            items s d ⟨wC.src, setFS init.1 d.segs .dir⟩ ⟨wM.src, setFS init.1 d.segs .dir⟩
            hop hnodk hnodn
            (Rem.mono (fun q hq nb hnb => disj_extend hq (List.prefix_append _ _)) hrem)
            rfl
          obtain ⟨hch2, hchdst, hchrem⟩ := hch
          cases hbc : childStep (genOp false op f) ⟨wC.src, setFS init.1 d.segs .dir⟩
              s d items with
          | mk wc3 rc3 =>
            cases hbm : childStep (genOp true op f) ⟨wM.src, setFS init.1 d.segs .dir⟩
                s d items with
            | mk wm3 rm3 =>
              have h32 : rm3 = rc3 := by
                rw [hbc, hbm] at hch2
                simpa using hch2
              have h3dst : wm3.dst = wc3.dst := by
                rw [hbc, hbm] at hchdst
                simpa using hchdst
              have h3rem : Rem (fun q => ∃ nb ∈ items, (s.segs ++ [nb.1]) <+: q)
                  wM.src wm3.src := by
                rw [hbm] at hchrem
                simpa using hchrem
              subst h32
              cases rm3 with
              | error e =>
                simp only [Except.map]
                rw [moveWrap_true_error]
                refine ⟨rfl, h3dst, fun v hv => absurd hv (by simp), fun e2 he => ?_⟩
                refine Rem.mono ?_ h3rem
                intro q hq
                obtain ⟨nb, hnb, hpre⟩ := hq
                exact strictUnder_of_child_pref hpre
              | ok mds =>
                have hlk3 : lookupFS wm3.src s.segs = lookupFS wM.src s.segs :=
                  Rem.lookup_eq (fun q hq => by
                    obtain ⟨nb, hnb, hpre⟩ := hq
                    exact strictUnder_not_pref (strictUnder_of_child_pref hpre)) h3rem
                have hsdir : lookupFS wM.src s.segs = some .dir :=
                  metadataList_ok_lookup hne hmdM
                have hdel : deleteFS wm3.src s.segs = .ok (removeTree wm3.src s.segs) :=
                  deleteFS_some (hlk3.trans hsdir)
                have hcol : removeTree wm3.src s.segs = removeTree wM.src s.segs :=
                  Rem.collapse (fun q hq => by
                    obtain ⟨nb, hnb, hpre⟩ := hq
                    exact (strictUnder_of_child_pref hpre).1) h3rem
                simp only [Except.map]
                rw [moveWrap_true_ok_delete _ hdel]
                refine ⟨rfl, h3dst, fun v hv => hcol, fun e2 he => absurd he (by simp)⟩

/-! ### Claim theorems C3, C7, C10 -/

/-- C3: for every source path other than the namespace root and every
destination, with well-formed source state and no intra fast path (the base
provider reports none), move is observationally equivalent to copy followed
by delete of the source: when the copy phase succeeds, move returns the same
metadata and created flag, its destination state equals what copy alone
produces, and the source subtree is removed so the source no longer exists;
when the copy phase raises, move propagates the same error, its destination
matches the failed copy, and the source delete never runs — the node at the
source path is exactly as before. -/
theorem move_equiv_copy_then_delete (op fuel : Nat) (w : World) (s d : WbPath)
    (hop : 1 ≤ op) (hs : s.segs ≠ []) (hwf : keysNodup w.src) :
    (∀ md cr, (copyF op fuel w s d).2 = .ok (md, cr) →
      moveF op fuel w s d =
        (⟨removeTree w.src s.segs, (copyF op fuel w s d).1.dst⟩, .ok (md, cr)) ∧
      lookupFS (moveF op fuel w s d).1.src s.segs = none) ∧
    (∀ e, (copyF op fuel w s d).2 = .error e →
      (moveF op fuel w s d).2 = .error e ∧
      (moveF op fuel w s d).1.dst = (copyF op fuel w s d).1.dst ∧
      lookupFS (moveF op fuel w s d).1.src s.segs = lookupFS w.src s.segs) := by
  obtain ⟨h2, hdst, hok, herr⟩ := genMain fuel op s d w w hop hs hwf (Rem.refl _) rfl
  simp only [moveF, copyF]
  constructor
  · intro md cr hcv
    have hsrc2 : (genOp true op fuel w s d).1.src = removeTree w.src s.segs :=
      hok (md, cr) hcv
    have hmv2 : (genOp true op fuel w s d).2 = .ok (md, cr) := by rw [h2, hcv]
    constructor
    · calc genOp true op fuel w s d
          = ((genOp true op fuel w s d).1, (genOp true op fuel w s d).2) := rfl
        _ = (⟨(genOp true op fuel w s d).1.src, (genOp true op fuel w s d).1.dst⟩,
            (genOp true op fuel w s d).2) := rfl
        _ = (⟨removeTree w.src s.segs, (genOp false op fuel w s d).1.dst⟩,
            .ok (md, cr)) := by rw [hsrc2, hdst, hmv2]
    · rw [hsrc2]
      exact lookupFS_removeTree_none (List.prefix_refl _) w.src
  · intro e hcv
    have hre := herr e hcv
    refine ⟨by rw [h2, hcv], hdst, ?_⟩
    exact Rem.lookup_eq (fun q hq => strictUnder_not_pref hq) hre

/-- Witness for C3: on the concrete five-entry source tree, move with the
copy result taken from the successful copy run. -/
theorem move_equiv_copy_then_delete_witness :
    moveF 2 4 w0 sPath0 dPath0 =
      (⟨removeTree w0.src sPath0.segs, (copyF 2 4 w0 sPath0 dPath0).1.dst⟩,
        .ok (mdExp, true)) ∧
    lookupFS (moveF 2 4 w0 sPath0 dPath0).1.src sPath0.segs = none :=
  (move_equiv_copy_then_delete 2 4 w0 sPath0 dPath0 (by omega) (by decide)
    (by unfold keysNodup; decide)).1 mdExp true rfl

/-- C7: in the recursive tree operation the initial destination delete sets
the created flag: deletion success gives created false together with the new
destination state, a 404 (nothing to delete) gives created true, and any
error whose code is not 404 re-raises, in which case the folder operation
stops immediately with the original state and that error. -/
theorem folder_op_initial_delete_created (r : Except Nat FS) (cur : FS) :
    (∀ fs1, r = .ok fs1 → folderOpInit r cur = .ok (fs1, false)) ∧
    (r = .error 404 → folderOpInit r cur = .ok (cur, true)) ∧
    (∀ c, c ≠ 404 → r = .error c → folderOpInit r cur = .error c) ∧
    (∀ (child : World → WbPath → WbPath → World × Except Nat (Md × Bool))
      (op : Nat) (w : World) (s d : WbPath) (e : Nat),
      folderOpInit (deleteFS w.dst d.segs) w.dst = .error e →
      folderFileOp child op w s d = (w, .error e)) := by
  refine ⟨?_, ?_, ?_, ?_⟩
  · intro fs1 h; rw [h]; rfl
  · intro h; rw [h]; rfl
  · intro c hc h
    rw [h]
    simp [folderOpInit, hc]
  · intro child op w s d e h
    exact folderFileOp_init_error h

/-- Witness for C7: a 404 delete outcome gives created true, a 500 outcome
re-raises. -/
theorem folder_op_initial_delete_created_witness :
    folderOpInit (.error 404) [] = .ok ([], true) ∧
    folderOpInit (.error 500) [] = .error 500 :=
  ⟨(folder_op_initial_delete_created (.error 404) []).2.1 rfl,
   (folder_op_initial_delete_created (.error 500) []).2.2.1 500 (by omega) rfl⟩

/-- C10: in the generic single-file copy path, when the download stream
carries a truthy name, the destination path is renamed to that name before
the upload, so copy uploads to and reports metadata for the renamed path,
whose final segment is the stream name; when the stream carries no name, or
an empty (falsy) name, the destination path is left unchanged. -/
theorem copy_renames_dest_to_stream_name (op fuel : Nat) (w : World) (s d : WbPath)
    (c : Nat) (sn : Option String)
    (hsd : s.isDir = false)
    (hlk : lookupFS w.src s.segs = some (.file c sn)) :
    copyF op fuel w s d =
      (⟨w.src, setFS w.dst (renameIfStream d sn).segs (.file c sn)⟩,
        .ok (.mk (lastString (renameIfStream d sn).segs) false [],
          (lookupFS w.dst (renameIfStream d sn).segs).isNone)) ∧
    (∀ nm, sn = some nm → nm ≠ "" →
      (renameIfStream d sn).segs = d.segs.dropLast ++ [nm] ∧
      lastString (renameIfStream d sn).segs = nm ∧
      (renameIfStream d sn).isDir = d.isDir) ∧
    (sn = none → renameIfStream d sn = d) ∧
    (sn = some "" → renameIfStream d sn = d) := by
  have hdl : downloadFS w.src s.segs = .ok (c, sn) := by
    unfold downloadFS
    rw [hlk]
  refine ⟨?_, ?_, ?_, ?_⟩
  · simp only [copyF]
    rw [genOp_file false op fuel w d hsd, moveWrap_false, fileCopy_ok hdl]
    rfl
  · intro nm hnm hne
    subst hnm
    simp [renameIfStream, hne, lastString, List.getLastD_concat]
  · intro h; subst h; rfl
  · intro h; subst h; rfl

/-- Witness for C10: a stream named doc renames the destination dir/orig to
dir/doc. -/
theorem copy_renames_dest_to_stream_name_witness :
    (renameIfStream ⟨["dir", "orig"], false⟩ (some "doc")).segs = ["dir", "doc"] ∧
    lastString (renameIfStream ⟨["dir", "orig"], false⟩ (some "doc")).segs = "doc" := by
  have h := (copy_renames_dest_to_stream_name 1 1 wRen ⟨["x"], false⟩
    ⟨["dir", "orig"], false⟩ 7 (some "doc") rfl rfl).2.1 "doc" rfl (by decide)
  exact ⟨by rw [h.1]; rfl, h.2.1⟩

/-- C8: the source folder's children are processed in batches of the
operation-concurrency limit op: the batches partition the child list in
order and each has at most op elements; within a batch a directory child is
awaited inline before the next child starts while file children stay in
flight until the batch wait, so the number of in-flight child operations
never exceeds the batch size and hence op; the first child operation that
raises aborts the batch (the remaining children of the batch and the later
batches never run) and its error propagates through the folder operation to
the caller of the top-level move/copy, with the state of the earlier
completed children kept, not undone. -/
theorem folder_children_batched_failfast (op : Nat) (hop : 1 ≤ op)
    (child : World → WbPath → WbPath → World × Except Nat (Md × Bool))
    (s d : WbPath) :
    (∀ (items : List (String × Bool)), (codeBatches op items).flatten = items) ∧
    (∀ (items b : List (String × Bool)), b ∈ codeBatches op items →
      b.length ≤ op ∧
      ∀ c ∈ inflightCounts (b.map (fun nb => nb.2)), c ≤ op) ∧
    (∀ (xs ys : List (String × Bool)) (w w1 : World) (e : Nat),
      childStep child w s d xs = (w1, .error e) →
      childStep child w s d (xs ++ ys) = (w1, .error e)) ∧
    (∀ (bs : List (List (String × Bool))) (w : World),
      batchStep (childStep child) w s d bs = childStep child w s d bs.flatten) ∧
    (∀ (mv : Bool) (fuel : Nat) (w w1 : World) (e : Nat) (init : FS × Bool)
      (items : List (String × Bool)),
      s.isDir = true →
      folderOpInit (deleteFS w.dst d.segs) w.dst = .ok init →
      metadataList w.src s.segs = .ok items →
      batchStep (childStep (genOp mv op fuel)) ⟨w.src, setFS init.1 d.segs .dir⟩
        s d (codeBatches op items) = (w1, .error e) →
      genOp mv op (fuel + 1) w s d = (w1, .error e)) := by
  refine ⟨?_, ?_, ?_, ?_, ?_⟩
  · intro items
    exact codeBatches_flatten hop items
  · intro items b hb
    have hlen : b.length ≤ op := codeBatches_sizes items hb
    refine ⟨hlen, ?_⟩
    intro c hc
    simp only [inflightCounts, List.mem_map, List.mem_range] at hc
    obtain ⟨j, hj, hcj⟩ := hc
    have h1 : (((b.map (fun nb => nb.2)).take j).countP (fun isF => !isF)) ≤
        ((b.map (fun nb => nb.2)).take j).length := List.countP_le_length _
    rw [List.length_take, List.length_map] at h1
    rw [List.length_map] at hj
    omega
  · intro xs ys w w1 e h
    exact childStep_append_error h ys
  · intro bs w
    exact batchStep_childStep_flatten child s d bs w
  · intro mv fuel w w1 e init items hsd h1 h2 hb
    rw [genOp_succ_dir mv op fuel w d hsd, folderFileOp_items h1 h2, hb]
    cases mv <;> simp [moveWrap, Except.map]

/-- Witness for C8: with op 2 and three children, the two batches flatten
back to the child list, the first batch holds two children, and its in-flight
counts (two file children) evaluate to 1 then 2, at most the batch size. -/
theorem folder_children_batched_failfast_witness :
    (codeBatches 2
        [("f", false), ("g", false), ("sub", true)]).flatten =
      [("f", false), ("g", false), ("sub", true)] ∧
    ([("f", false), ("g", false)] : List (String × Bool)).length ≤ 2 ∧
    inflightCounts [false, false] = [1, 2] := by
  refine ⟨(folder_children_batched_failfast 2 (by omega)
      (genOp false 2 0) sPath0 dPath0).1 _, ?_, rfl⟩
  exact ((folder_children_batched_failfast 2 (by omega)
      (genOp false 2 0) sPath0 dPath0).2.1
      [("f", false), ("g", false), ("sub", true)]
      [("f", false), ("g", false)] (by decide)).1

end WaterbutlerSpec
